import Mathlib

set_option linter.unusedVariables false

/-!
Verification development for the ImageHexEditor core.

The development shallowly embeds the three core modules of the repository:

* the JPEG byte classifier of jpegStructure.ts (analyzeJpeg, classifyByte,
  readSegment, consumeScanData, markRange, markByte, codeToRegion);
* the editor state with snapshot history of editorState.ts (loadNewFile,
  applyEdit, applyInsert, undo, redo, canUndo, canRedo, setActiveOffset,
  pushSnapshot, restoreFromHistory);
* the region navigation index of imagehexeditor.ts (recomputeRegionOffsets,
  findOffsetForRegion).

Byte buffers are modelled as lists of natural numbers read through a
Uint8Array-style accessor (reads reduce the stored value mod 256, as a
Uint8Array does on store).  The per-byte region array of the classifier is
modelled as a total function from offsets to numeric region codes; writing
to the array becomes pointwise function override.  The two scanning loops
of the classifier are modelled with an explicit fuel argument; fuel equal
to the buffer length is always sufficient because every iteration strictly
advances the position (proved below as fuel-irrelevance lemmas), so the
embedding computes exactly what the source loops compute.  The outer scan
additionally reports the position at which classification aborted on a
malformed segment (the source's break), which the source discards; the
published layout ignores it.
-/

/-- Region tags of the classifier: the string union ByteRegion in
jpegStructure.ts ('sof-width' is sofWidth, 'sos-header' is sosHeader). -/
inductive ByteRegion where
  | unknown
  | soi
  | app
  | dqt
  | sof
  | sofWidth
  | dht
  | dri
  | sosHeader
  | scan
  | rst
  | com
  | eoi
  | other
deriving DecidableEq, Repr

/-- Numeric region code RegionCode.Unknown. -/
def rcUnknown : Nat := 0

/-- Numeric region code RegionCode.Soi. -/
def rcSoi : Nat := 1

/-- Numeric region code RegionCode.App. -/
def rcApp : Nat := 2

/-- Numeric region code RegionCode.Dqt. -/
def rcDqt : Nat := 3

/-- Numeric region code RegionCode.Sof. -/
def rcSof : Nat := 4

/-- Numeric region code RegionCode.SofWidth. -/
def rcSofWidth : Nat := 5

/-- Numeric region code RegionCode.Dht. -/
def rcDht : Nat := 6

/-- Numeric region code RegionCode.Dri. -/
def rcDri : Nat := 7

/-- Numeric region code RegionCode.SosHeader. -/
def rcSosHeader : Nat := 8

/-- Numeric region code RegionCode.Scan. -/
def rcScan : Nat := 9

/-- Numeric region code RegionCode.Rst. -/
def rcRst : Nat := 10

/-- Numeric region code RegionCode.Com. -/
def rcCom : Nat := 11

/-- Numeric region code RegionCode.Eoi. -/
def rcEoi : Nat := 12

/-- Numeric region code RegionCode.Other. -/
def rcOther : Nat := 13

/-- The JpegLayout interface: total byte count plus the per-byte region
codes (the source's Uint8Array of codes, modelled as a total function). -/
structure JpegLayout where
  length : Nat
  regions : Nat → Nat

/-- Uint8Array-style read of a byte buffer: out-of-range reads are never
performed by the (guarded) source code, and stored values are bytes. -/
def bget (bytes : List Nat) (i : Nat) : Nat :=
  bytes.getD i 0 % 256

/-- Pointwise write regions[i] = code (the source's direct array store;
every such store in the source is at an in-bounds index). -/
def upd (regions : Nat → Nat) (i code : Nat) : Nat → Nat :=
  fun j => if j = i then code else regions j

/-- The markRange helper: a no-op when the end exceeds the array length
(the source returns early; with Nat offsets start is never negative),
otherwise writes code on [start, stop). -/
def markRange (len : Nat) (regions : Nat → Nat) (start stop code : Nat) : Nat → Nat :=
  if len < stop then regions
  else fun j => if start ≤ j ∧ j < stop then code else regions j

/-- The markByte helper: writes code at index when the index is in bounds. -/
def markByte (len : Nat) (regions : Nat → Nat) (index code : Nat) : Nat → Nat :=
  if index < len then upd regions index code else regions

/-- The readSegment helper: reads the 2-byte big-endian length field after
the marker id and validates it; headerEnd and segmentEnd coincide in the
source, so a single end offset is returned. -/
def readSegment (bytes : List Nat) (markerStart : Nat) : Option Nat :=
  let len := bytes.length
  if len ≤ markerStart + 3 then none
  else
    let segLen := bget bytes (markerStart + 2) <<< 8 ||| bget bytes (markerStart + 3)
    if segLen < 2 then none
    else
      let stop := markerStart + 2 + segLen
      if len < stop then none
      else some stop

/-- The isSofMarker helper: SOF0-SOF15 excluding DHT (C4) and the C8/CC
extensions. -/
def isSofMarker (marker : Nat) : Bool :=
  (marker &&& 0xf0 == 0xc0) && (marker != 0xc4) && (marker != 0xc8) && (marker != 0xcc)

/-- Trailing-bytes phase of consumeScanData: the source's final while loop
that tags every byte from i up to the end of the buffer as scan data. -/
def scanTail (len : Nat) (regions : Nat → Nat) (i : Nat) : Nat → Nat :=
  fun j => if i ≤ j ∧ j < len then rcScan else regions j

/-- The consumeScanData loop, with explicit fuel (fuel equal to the buffer
length always suffices, see consumeScanData_fuel below).  Returns the
updated regions together with the position at which the outer scan
resumes. -/
def consumeScanData (bytes : List Nat) : Nat → (Nat → Nat) → Nat → ((Nat → Nat) × Nat)
  | 0, regions, i => (regions, i)
  | fuel + 1, regions, i =>
    let len := bytes.length
    if i < len - 1 then
      let b := bget bytes i
      if b ≠ 0xff then
        consumeScanData bytes fuel (upd regions i rcScan) (i + 1)
      else
        let nxt := bget bytes (i + 1)
        if nxt = 0x00 then
          consumeScanData bytes fuel (upd (upd regions i rcScan) (i + 1) rcScan) (i + 2)
        else if 0xd0 ≤ nxt ∧ nxt ≤ 0xd7 then
          consumeScanData bytes fuel (markRange len regions i (i + 2) rcRst) (i + 2)
        else if nxt = 0xff then
          consumeScanData bytes fuel (upd regions i rcScan) (i + 1)
        else
          (regions, i)
    else
      (scanTail len regions i, len)

/-- Result of one iteration of the outer marker scan of analyzeJpeg:
either continue at a new position, or abort classification (the source's
break on a malformed segment), remembering where the abort happened. -/
inductive ScanStep where
  | cont (regions : Nat → Nat) (pos : Nat)
  | halt (regions : Nat → Nat) (abortPos : Nat)

/-- One iteration of the outer while loop of analyzeJpeg, for a position
pos with pos < length - 1 (the loop guard; the source's inner
pos + 1 >= len break is unreachable under that guard and is omitted). -/
def scanStep (bytes : List Nat) (regions : Nat → Nat) (pos : Nat) : ScanStep :=
  if bget bytes pos ≠ 0xff then
    ScanStep.cont (if regions pos = rcUnknown then upd regions pos rcOther else regions) (pos + 1)
  else if bget bytes (pos + 1) = 0xd9 then
    ScanStep.cont (markRange bytes.length regions pos (min (pos + 2) bytes.length) rcEoi) (pos + 2)
  else if bget bytes (pos + 1) = 0xd8 then
    ScanStep.cont (markRange bytes.length regions pos (min (pos + 2) bytes.length) rcSoi) (pos + 2)
  else if 0xd0 ≤ bget bytes (pos + 1) ∧ bget bytes (pos + 1) ≤ 0xd7 then
    ScanStep.cont (markRange bytes.length regions pos (min (pos + 2) bytes.length) rcRst) (pos + 2)
  else if bget bytes (pos + 1) = 0x01 then
    ScanStep.cont (markRange bytes.length regions pos (min (pos + 2) bytes.length) rcOther) (pos + 2)
  else
    match readSegment bytes pos with
    | none => ScanStep.halt regions pos
    | some segmentEnd =>
      if 0xe0 ≤ bget bytes (pos + 1) ∧ bget bytes (pos + 1) ≤ 0xef then
        ScanStep.cont (markRange bytes.length regions pos segmentEnd rcApp) segmentEnd
      else if bget bytes (pos + 1) = 0xdb then
        ScanStep.cont (markRange bytes.length regions pos segmentEnd rcDqt) segmentEnd
      else if isSofMarker (bget bytes (pos + 1)) then
        ScanStep.cont
          (markByte bytes.length
            (markByte bytes.length (markRange bytes.length regions pos segmentEnd rcSof)
              (pos + 7) rcSofWidth)
            (pos + 8) rcSofWidth)
          segmentEnd
      else if bget bytes (pos + 1) = 0xc4 then
        ScanStep.cont (markRange bytes.length regions pos segmentEnd rcDht) segmentEnd
      else if bget bytes (pos + 1) = 0xdd then
        ScanStep.cont (markRange bytes.length regions pos segmentEnd rcDri) segmentEnd
      else if bget bytes (pos + 1) = 0xda then
        ScanStep.cont
          (consumeScanData bytes bytes.length
            (markRange bytes.length regions pos segmentEnd rcSosHeader) segmentEnd).1
          (consumeScanData bytes bytes.length
            (markRange bytes.length regions pos segmentEnd rcSosHeader) segmentEnd).2
      else if bget bytes (pos + 1) = 0xfe then
        ScanStep.cont (markRange bytes.length regions pos segmentEnd rcCom) segmentEnd
      else
        ScanStep.cont (markRange bytes.length regions pos segmentEnd rcOther) segmentEnd

/-- The outer while loop of analyzeJpeg, with explicit fuel (fuel equal to
the buffer length always suffices, see scanLoop_fuel below).  The second
component reports the abort position of a malformed-segment break, which
the source discards. -/
def scanLoop (bytes : List Nat) : Nat → (Nat → Nat) → Nat → ((Nat → Nat) × Option Nat)
  | 0, regions, _ => (regions, none)
  | fuel + 1, regions, pos =>
    if pos < bytes.length - 1 then
      match scanStep bytes regions pos with
      | ScanStep.cont r p => scanLoop bytes fuel r p
      | ScanStep.halt r a => (r, some a)
    else (regions, none)

/-- The analyzeJpeg classifier including the abort-position instrument:
none for rejected input, otherwise the final region codes together with
the abort position of a malformed-segment break (if any). -/
def analyzeJpegFull (bytes : List Nat) : Option ((Nat → Nat) × Option Nat) :=
  let len := bytes.length
  if len < 4 then none
  else if bget bytes 0 = 0xff ∧ bget bytes 1 = 0xd8 then
    some (scanLoop bytes len (markRange len (fun _ => rcUnknown) 0 2 rcSoi) 2)
  else none

/-- The analyzeJpeg classifier as published by the source: a JpegLayout or
null. -/
def analyzeJpeg (bytes : List Nat) : Option JpegLayout :=
  (analyzeJpegFull bytes).map (fun res => { length := bytes.length, regions := res.1 })

/-- The codeToRegion helper: decodes a stored region code, defaulting to
unknown. -/
def codeToRegion (code : Nat) : ByteRegion :=
  match code with
  | 1 => ByteRegion.soi
  | 2 => ByteRegion.app
  | 3 => ByteRegion.dqt
  | 4 => ByteRegion.sof
  | 5 => ByteRegion.sofWidth
  | 6 => ByteRegion.dht
  | 7 => ByteRegion.dri
  | 8 => ByteRegion.sosHeader
  | 9 => ByteRegion.scan
  | 10 => ByteRegion.rst
  | 11 => ByteRegion.com
  | 12 => ByteRegion.eoi
  | 13 => ByteRegion.other
  | _ => ByteRegion.unknown

/-- The classifyByte function: unknown for a null layout or an offset
outside [0, length), otherwise the decoded stored code.  The offset is an
integer, as in the source, so negative offsets are representable. -/
def classifyByte (offset : Int) (layout : Option JpegLayout) : ByteRegion :=
  match layout with
  | none => ByteRegion.unknown
  | some l =>
    if offset < 0 ∨ (l.length : Int) ≤ offset then ByteRegion.unknown
    else codeToRegion (l.regions offset.toNat)

/-- The EditorState record of editorState.ts.  historyIndex is an integer
(it is -1 in the empty state); activeOffset is never negative in the
source (it is only ever assigned 0 or a value clamped below by 0), so it
is a natural number. -/
structure EditorState where
  bytes : Option (List Nat)
  fileName : Option String
  fileSize : Nat
  layout : Option JpegLayout
  activeOffset : Nat
  history : List (List Nat)
  historyIndex : Int

/-- The createEmptyState function. -/
def createEmptyState : EditorState :=
  { bytes := none
    fileName := none
    fileSize := 0
    layout := none
    activeOffset := 0
    history := []
    historyIndex := -1 }

/-- The pushSnapshot helper: publishes the bytes as current, reclassifies,
truncates any redo branch beyond the current history index, appends the
snapshot, and clamps the active offset into the new bounds. -/
def pushSnapshot (s : EditorState) (bytes : List Nat) (fileName : Option String) : EditorState :=
  let trimmed :=
    if 0 ≤ s.historyIndex ∧ s.historyIndex < (s.history.length : Int) - 1 then
      s.history.take (s.historyIndex.toNat + 1)
    else s.history
  let history' := trimmed ++ [bytes]
  { bytes := some bytes
    fileName := fileName
    fileSize := bytes.length
    layout := analyzeJpeg bytes
    activeOffset :=
      if bytes.length ≤ s.activeOffset then
        if 0 < bytes.length then bytes.length - 1 else 0
      else s.activeOffset
    history := history'
    historyIndex := (history'.length : Int) - 1 }

/-- The restoreFromHistory helper: republishes the snapshot at the current
history index and clamps the active offset.  The source indexes the
history array without a bounds check (an out-of-range index would fault);
the states our theorems quantify over keep the index in range, where the
total getD read coincides with the source's read. -/
def restoreFromHistory (s : EditorState) : EditorState :=
  let current := s.history.getD s.historyIndex.toNat []
  { s with
    bytes := some current
    fileSize := current.length
    layout := analyzeJpeg current
    activeOffset :=
      if current.length ≤ s.activeOffset then
        if 0 < current.length then current.length - 1 else 0
      else s.activeOffset }

/-- The loadNewFile operation: pushes a snapshot of the buffer and resets
the active offset to 0. -/
def loadNewFile (s : EditorState) (buffer : List Nat) (fileName : Option String) : EditorState :=
  let s' := pushSnapshot s buffer fileName
  { s' with activeOffset := 0 }

/-- The applyEdit operation: a no-op without a current buffer, otherwise
applies the mutator to a copy of the current bytes and pushes the result.
The mutator mutates a same-length draft in place in the source; it is
modelled as a function on byte lists. -/
def applyEdit (s : EditorState) (mutator : List Nat → List Nat) : EditorState :=
  match s.bytes with
  | none => s
  | some b => pushSnapshot s (mutator b) s.fileName

/-- Clamp of the insertion offset into [0, length] performed by
applyInsert (Math.max(0, Math.min(offset, src.length))). -/
def clampInsertOffset (offset : Int) (len : Nat) : Nat :=
  (max 0 (min offset (len : Int))).toNat

/-- The applyInsert operation: a no-op without a current buffer or with an
empty payload; otherwise builds prefix ++ insert ++ suffix at the clamped
offset (the source writes the three spans into a fresh array of the
combined length), pushes it, and moves the active offset to the clamped
offset. -/
def applyInsert (s : EditorState) (offset : Int) (ins : List Nat) : EditorState :=
  match s.bytes with
  | none => s
  | some b =>
    if ins.length = 0 then s
    else
      let safeOffset := clampInsertOffset offset b.length
      let nxt := b.take safeOffset ++ ins ++ b.drop safeOffset
      let s' := pushSnapshot s nxt s.fileName
      { s' with activeOffset := safeOffset }

/-- The canUndo query. -/
def canUndo (s : EditorState) : Bool :=
  decide (0 < s.historyIndex)

/-- The canRedo query. -/
def canRedo (s : EditorState) : Bool :=
  decide (0 ≤ s.historyIndex) && decide (s.historyIndex < (s.history.length : Int) - 1)

/-- The undo operation: moves the history index down by one and restores,
returning the updated state and whether the undo happened. -/
def undo (s : EditorState) : EditorState × Bool :=
  if canUndo s then
    (restoreFromHistory { s with historyIndex := s.historyIndex - 1 }, true)
  else (s, false)

/-- The redo operation: moves the history index up by one and restores,
returning the updated state and whether the redo happened. -/
def redo (s : EditorState) : EditorState × Bool :=
  if canRedo s then
    (restoreFromHistory { s with historyIndex := s.historyIndex + 1 }, true)
  else (s, false)

/-- The setActiveOffset operation: clamps the offset into [0, length - 1],
or stores 0 when there is no buffer or it is empty. -/
def setActiveOffset (s : EditorState) (offset : Int) : EditorState :=
  match s.bytes with
  | none => { s with activeOffset := 0 }
  | some b =>
    if b.length = 0 then { s with activeOffset := 0 }
    else { s with activeOffset := (max 0 (min offset ((b.length : Int) - 1))).toNat }

/-- Direction of a jump request in imagehexeditor.ts. -/
inductive JumpDirection where
  | next
  | prev
deriving DecidableEq, Repr

/-- Membership in the REGION_DEFS jump menu of imagehexeditor.ts: the
region kinds whose run starts are recorded for navigation. -/
def isJumpable (tag : ByteRegion) : Bool :=
  match tag with
  | ByteRegion.soi => true
  | ByteRegion.app => true
  | ByteRegion.dqt => true
  | ByteRegion.sof => true
  | ByteRegion.dht => true
  | ByteRegion.dri => true
  | ByteRegion.sosHeader => true
  | ByteRegion.rst => true
  | ByteRegion.com => true
  | ByteRegion.eoi => true
  | _ => false

/-- Core of recomputeRegionOffsets, projected to a single region tag: walk
the given offsets in order, remember the previously seen tag, and record
every offset that starts a new run of the requested (jumpable) tag. -/
def collectRunStarts (layout : JpegLayout) (tag : ByteRegion) : List Nat → Option ByteRegion → List Nat
  | [], _ => []
  | i :: rest, prevRegion =>
    let r := classifyByte (i : Int) (some layout)
    if some r = prevRegion then collectRunStarts layout tag rest prevRegion
    else
      (if r = tag ∧ isJumpable tag then [i] else []) ++ collectRunStarts layout tag rest (some r)

/-- The run-start offsets recorded for one region tag by
recomputeRegionOffsets: indices 0, 1, ..., length - 1 are scanned in
order. -/
def regionOffsetsFor (layout : JpegLayout) (tag : ByteRegion) : List Nat :=
  collectRunStarts layout tag (List.range layout.length) none

/-- The findOffsetForRegion query of imagehexeditor.ts.  hasBytes is the
state.bytes null-check at the top of the source function; offsets is the
recorded run-start list for the requested region. -/
def findOffsetForRegion (hasBytes : Bool) (offsets : List Nat) (startOffset : Nat)
    (dir : JumpDirection) : Option Nat :=
  if !hasBytes then none
  else if offsets.length = 0 then none
  else if offsets.length = 1 then some (offsets.headD 0)
  else
    match dir with
    | JumpDirection.next =>
      match offsets.find? (fun x => decide (startOffset < x)) with
      | some x => some x
      | none => some (offsets.headD 0)
    | JumpDirection.prev =>
      match offsets.reverse.find? (fun x => decide (x < startOffset)) with
      | some x => some x
      | none => some (offsets.getLastD 0)

/-- Position component of a scan step (the continuation position, or the
abort position). -/
def stepPos : ScanStep → Nat
  | ScanStep.cont _ p => p
  | ScanStep.halt _ a => a

/-- Modelled from the spec (section 4.1): the behaviour the specification
prescribes for an outer-scan iteration at a length-carrying marker.  A
2-byte big-endian length is read immediately after the id (counting its
own two bytes); a length below 2 or a segment end past the buffer aborts;
otherwise the segment [id-position, id-position + 2 + length) is tagged by
id range (application segment, quantization table, frame header with the
two width bytes overlaid, huffman table, restart interval, scan start with
entropy-data hand-off, comment, or other), and the scan resumes at the
segment end (for scan start: where entropy consumption stops). -/
def lengthSegStep (bytes : List Nat) (regions : Nat → Nat) (pos : Nat) : ScanStep :=
  match readSegment bytes pos with
  | none => ScanStep.halt regions pos
  | some segmentEnd =>
    if 0xe0 ≤ bget bytes (pos + 1) ∧ bget bytes (pos + 1) ≤ 0xef then
      ScanStep.cont (markRange bytes.length regions pos segmentEnd rcApp) segmentEnd
    else if bget bytes (pos + 1) = 0xdb then
      ScanStep.cont (markRange bytes.length regions pos segmentEnd rcDqt) segmentEnd
    else if isSofMarker (bget bytes (pos + 1)) then
      ScanStep.cont
        (markByte bytes.length
          (markByte bytes.length (markRange bytes.length regions pos segmentEnd rcSof)
            (pos + 7) rcSofWidth)
          (pos + 8) rcSofWidth)
        segmentEnd
    else if bget bytes (pos + 1) = 0xc4 then
      ScanStep.cont (markRange bytes.length regions pos segmentEnd rcDht) segmentEnd
    else if bget bytes (pos + 1) = 0xdd then
      ScanStep.cont (markRange bytes.length regions pos segmentEnd rcDri) segmentEnd
    else if bget bytes (pos + 1) = 0xda then
      ScanStep.cont
        (consumeScanData bytes bytes.length
          (markRange bytes.length regions pos segmentEnd rcSosHeader) segmentEnd).1
        (consumeScanData bytes bytes.length
          (markRange bytes.length regions pos segmentEnd rcSosHeader) segmentEnd).2
    else if bget bytes (pos + 1) = 0xfe then
      ScanStep.cont (markRange bytes.length regions pos segmentEnd rcCom) segmentEnd
    else
      ScanStep.cont (markRange bytes.length regions pos segmentEnd rcOther) segmentEnd

/-- Claim C5 as stated: on accepted input, when classification aborts at
position p, every byte from p to the end of the buffer carries the
unknown tag. -/
def C5Claim : Prop :=
  ∀ (bytes : List Nat) (r : Nat → Nat) (p : Nat),
    analyzeJpegFull bytes = some (r, some p) →
    ∀ i, p ≤ i → i < bytes.length → r i = rcUnknown

/-- Claim C6 as stated: during the outer scan, at a marker-prefix byte
whose marker id is not the end-marker id, not a restart-marker id and not
the no-payload fill id, the iteration reads the 2-byte big-endian length
field and treats the segment as ending at id-position + 2 + length (the
behaviour of lengthSegStep). -/
def C6Claim : Prop :=
  ∀ (bytes : List Nat) (regions : Nat → Nat) (pos : Nat),
    pos + 1 < bytes.length →
    bget bytes pos = 0xff →
    bget bytes (pos + 1) ≠ 0xd9 →
    ¬(0xd0 ≤ bget bytes (pos + 1) ∧ bget bytes (pos + 1) ≤ 0xd7) →
    bget bytes (pos + 1) ≠ 0x01 →
    scanStep bytes regions pos = lengthSegStep bytes regions pos

/-- Well-formedness of an editor state, as established by every operation
of editorState.ts: without a buffer the state is pristine; with a buffer
the history index is in range, the indexed snapshot is the current byte
sequence, and the active offset is within the buffer bounds. -/
def WF (s : EditorState) : Prop :=
  match s.bytes with
  | none => s.history = [] ∧ s.historyIndex = -1 ∧ s.activeOffset = 0
  | some b =>
    0 ≤ s.historyIndex ∧ s.historyIndex < (s.history.length : Int) ∧
      s.history.getD s.historyIndex.toNat [] = b ∧
      (if b.length = 0 then s.activeOffset = 0 else s.activeOffset < b.length)

/-- The active-offset invariant of claim C9: the cursor lies in
[0, length - 1] whenever the buffer is non-empty, and is 0 when the buffer
is empty or absent. -/
def AOInv (s : EditorState) : Prop :=
  match s.bytes with
  | none => s.activeOffset = 0
  | some b => if b.length = 0 then s.activeOffset = 0 else s.activeOffset < b.length

/-- Concrete classifier input for claim C5: SOI, then a frame-header
segment with declared length 2 (whose width-byte overlay at offsets 9 and
10 lands beyond the segment end 6), then a malformed application segment
with declared length 1, which aborts the scan at position 6. -/
def ex5 : List Nat :=
  [0xff, 0xd8, 0xff, 0xc0, 0x00, 0x02, 0xff, 0xe0, 0x00, 0x01, 0xaa]

/-- Region codes computed by the classifier on ex5. -/
def ex5regions : Nat → Nat :=
  ((analyzeJpegFull ex5).getD (fun _ => rcUnknown, none)).1

/-- Concrete input for claim C6: a second start-of-image marker FF D8 at
position 2, followed by bytes that read as a well-formed length field
(0x0004). -/
def bytes6 : List Nat :=
  [0xff, 0xd8, 0xff, 0xd8, 0x00, 0x04, 0x00, 0x00]

/-- All-unknown region array. -/
def r0 : Nat → Nat := fun _ => rcUnknown

/-- Concrete input for the witness of the amended claim C6: an application
segment FF E0 with declared length 2 at position 2. -/
def ex6w : List Nat :=
  [0xff, 0xd8, 0xff, 0xe0, 0x00, 0x02]

/-- Concrete layout for the claim C10 witness. -/
def layout10 : JpegLayout :=
  { length := 2, regions := fun _ => rcSoi }

/-- Concrete layout for the claim C8 witness: one SOI run, one APP run,
then scan data. -/
def layout8 : JpegLayout :=
  { length := 6
    regions := fun i => if i < 2 then rcSoi else if i < 4 then rcApp else rcScan }

/-- Concrete state with one snapshot in history. -/
def stateA : EditorState :=
  loadNewFile createEmptyState [0] none

/-- Concrete state with two snapshots in history (a load and an edit). -/
def stateB : EditorState :=
  applyEdit stateA (fun b => b)

/-- Reading an override at a different index sees the previous value. -/
theorem upd_apply_ne (regions : Nat → Nat) (i code j : Nat) (h : j ≠ i) :
    upd regions i code j = regions j := by
  simp [upd, h]

/-- markRange does not touch indices at or beyond the end of the range. -/
theorem markRange_apply_ge (len : Nat) (regions : Nat → Nat) (start stop code j : Nat)
    (h : stop ≤ j) : markRange len regions start stop code j = regions j := by
  unfold markRange
  split
  · rfl
  · show (if start ≤ j ∧ j < stop then code else regions j) = regions j
    rw [if_neg (by omega)]

/-- markRange writes the code inside a valid range. -/
theorem markRange_apply_in (len : Nat) (regions : Nat → Nat) (start stop code j : Nat)
    (hs : start ≤ j) (hj : j < stop) (hl : stop ≤ len) :
    markRange len regions start stop code j = code := by
  unfold markRange
  rw [if_neg (by omega)]
  simp [hs, hj]

/-- markByte leaves every other index unchanged. -/
theorem markByte_apply_ne (len : Nat) (regions : Nat → Nat) (index code j : Nat)
    (h : j ≠ index) : markByte len regions index code j = regions j := by
  unfold markByte
  split
  · exact upd_apply_ne regions index code j h
  · rfl

/-- markByte either writes the code or leaves the value unchanged. -/
theorem markByte_apply_cases (len : Nat) (regions : Nat → Nat) (index code j : Nat) :
    markByte len regions index code j = regions j ∨ markByte len regions index code j = code := by
  unfold markByte
  split
  · unfold upd
    split
    · exact Or.inr rfl
    · exact Or.inl rfl
  · exact Or.inl rfl

/-- A segment accepted by readSegment starts at least 4 bytes before its
end and ends within the buffer. -/
theorem readSegment_bounds (bytes : List Nat) (markerStart stop : Nat)
    (h : readSegment bytes markerStart = some stop) :
    markerStart + 4 ≤ stop ∧ stop ≤ bytes.length := by
  unfold readSegment at h
  simp only at h
  split at h
  · exact absurd h (by simp)
  · split at h
    · exact absurd h (by simp)
    · split at h
      · exact absurd h (by simp)
      · cases h
        omega

/-- The resume position of consumeScanData never moves backwards and never
leaves the buffer. -/
theorem consumeScanData_pos (bytes : List Nat) (fuel : Nat) :
    ∀ (regions : Nat → Nat) (i : Nat), i ≤ bytes.length →
      i ≤ (consumeScanData bytes fuel regions i).2 ∧
        (consumeScanData bytes fuel regions i).2 ≤ bytes.length := by
  induction fuel with
  | zero => intro regions i hi; simpa [consumeScanData] using hi
  | succ fuel ih =>
    intro regions i hi
    simp only [consumeScanData]
    split
    · split
      · have := ih (upd regions i rcScan) (i + 1) (by omega)
        omega
      · split
        · have := ih (upd (upd regions i rcScan) (i + 1) rcScan) (i + 2) (by omega)
          omega
        · split
          · have := ih (markRange bytes.length regions i (i + 2) rcRst) (i + 2) (by omega)
            omega
          · split
            · have := ih (upd regions i rcScan) (i + 1) (by omega)
              omega
            · simpa using hi
    · simpa using hi

/-- consumeScanData writes no index at or beyond its resume position. -/
theorem consumeScanData_untouched (bytes : List Nat) (fuel : Nat) :
    ∀ (regions : Nat → Nat) (i j : Nat), i ≤ bytes.length →
      (consumeScanData bytes fuel regions i).2 ≤ j →
      (consumeScanData bytes fuel regions i).1 j = regions j := by
  induction fuel with
  | zero => intro regions i j hi hj; simp [consumeScanData]
  | succ fuel ih =>
    intro regions i j hi hj
    by_cases hguard : i < bytes.length - 1
    · by_cases hb : bget bytes i ≠ 0xff
      · have heq : consumeScanData bytes (fuel + 1) regions i =
            consumeScanData bytes fuel (upd regions i rcScan) (i + 1) := by
          simp only [consumeScanData]
          rw [if_pos hguard, if_pos hb]
        rw [heq] at hj ⊢
        have hge := (consumeScanData_pos bytes fuel (upd regions i rcScan) (i + 1) (by omega)).1
        rw [ih (upd regions i rcScan) (i + 1) j (by omega) hj]
        exact upd_apply_ne regions i rcScan j (by omega)
      · by_cases hc : bget bytes (i + 1) = 0x00
        · have heq : consumeScanData bytes (fuel + 1) regions i =
              consumeScanData bytes fuel (upd (upd regions i rcScan) (i + 1) rcScan) (i + 2) := by
            simp only [consumeScanData]
            rw [if_pos hguard, if_neg hb, if_pos hc]
          rw [heq] at hj ⊢
          have hge := (consumeScanData_pos bytes fuel
            (upd (upd regions i rcScan) (i + 1) rcScan) (i + 2) (by omega)).1
          rw [ih _ (i + 2) j (by omega) hj]
          rw [upd_apply_ne _ (i + 1) rcScan j (by omega)]
          exact upd_apply_ne regions i rcScan j (by omega)
        · by_cases hd : 0xd0 ≤ bget bytes (i + 1) ∧ bget bytes (i + 1) ≤ 0xd7
          · have heq : consumeScanData bytes (fuel + 1) regions i =
                consumeScanData bytes fuel (markRange bytes.length regions i (i + 2) rcRst) (i + 2) := by
              simp only [consumeScanData]
              rw [if_pos hguard, if_neg hb, if_neg hc, if_pos hd]
            rw [heq] at hj ⊢
            have hge := (consumeScanData_pos bytes fuel
              (markRange bytes.length regions i (i + 2) rcRst) (i + 2) (by omega)).1
            rw [ih _ (i + 2) j (by omega) hj]
            exact markRange_apply_ge bytes.length regions i (i + 2) rcRst j (by omega)
          · by_cases he : bget bytes (i + 1) = 0xff
            · have heq : consumeScanData bytes (fuel + 1) regions i =
                  consumeScanData bytes fuel (upd regions i rcScan) (i + 1) := by
                simp only [consumeScanData]
                rw [if_pos hguard, if_neg hb, if_neg hc, if_neg hd, if_pos he]
              rw [heq] at hj ⊢
              have hge := (consumeScanData_pos bytes fuel (upd regions i rcScan) (i + 1) (by omega)).1
              rw [ih (upd regions i rcScan) (i + 1) j (by omega) hj]
              exact upd_apply_ne regions i rcScan j (by omega)
            · have heq : consumeScanData bytes (fuel + 1) regions i = (regions, i) := by
                simp only [consumeScanData]
                rw [if_pos hguard, if_neg hb, if_neg hc, if_neg hd, if_neg he]
              rw [heq]
    · have heq : consumeScanData bytes (fuel + 1) regions i =
          (scanTail bytes.length regions i, bytes.length) := by
        simp only [consumeScanData]
        rw [if_neg hguard]
      rw [heq] at hj ⊢
      show (if i ≤ j ∧ j < bytes.length then rcScan else regions j) = regions j
      simp only at hj
      rw [if_neg (by omega)]

/-- Case analysis of one outer-scan iteration: it either continues,
strictly advancing the position while leaving every index at or beyond
the new position unchanged or overlaid with the frame-header width
sub-tag, or it aborts, changing nothing and reporting the current
position. -/
theorem scanStep_cases (bytes : List Nat) (regions : Nat → Nat) (pos : Nat) :
    (∃ r' p, scanStep bytes regions pos = ScanStep.cont r' p ∧ pos < p ∧
      ∀ j, p ≤ j → r' j = regions j ∨ r' j = rcSofWidth) ∨
    scanStep bytes regions pos = ScanStep.halt regions pos := by
  by_cases hff : bget bytes pos ≠ 0xff
  · have heq : scanStep bytes regions pos =
        ScanStep.cont (if regions pos = rcUnknown then upd regions pos rcOther else regions)
          (pos + 1) := by
      unfold scanStep
      rw [if_pos hff]
    refine Or.inl ⟨_, _, heq, by omega, fun j hj => Or.inl ?_⟩
    split
    · exact upd_apply_ne regions pos rcOther j (by omega)
    · rfl
  · by_cases h9 : bget bytes (pos + 1) = 0xd9
    · have heq : scanStep bytes regions pos =
          ScanStep.cont (markRange bytes.length regions pos (min (pos + 2) bytes.length) rcEoi)
            (pos + 2) := by
        unfold scanStep
        rw [if_neg hff, if_pos h9]
      exact Or.inl ⟨_, _, heq, by omega,
        fun j hj => Or.inl (markRange_apply_ge _ _ _ _ _ _ (by omega))⟩
    · by_cases h8 : bget bytes (pos + 1) = 0xd8
      · have heq : scanStep bytes regions pos =
            ScanStep.cont (markRange bytes.length regions pos (min (pos + 2) bytes.length) rcSoi)
              (pos + 2) := by
          unfold scanStep
          rw [if_neg hff, if_neg h9, if_pos h8]
        exact Or.inl ⟨_, _, heq, by omega,
          fun j hj => Or.inl (markRange_apply_ge _ _ _ _ _ _ (by omega))⟩
      · by_cases hrst : 0xd0 ≤ bget bytes (pos + 1) ∧ bget bytes (pos + 1) ≤ 0xd7
        · have heq : scanStep bytes regions pos =
              ScanStep.cont (markRange bytes.length regions pos (min (pos + 2) bytes.length) rcRst)
                (pos + 2) := by
            unfold scanStep
            rw [if_neg hff, if_neg h9, if_neg h8, if_pos hrst]
          exact Or.inl ⟨_, _, heq, by omega,
            fun j hj => Or.inl (markRange_apply_ge _ _ _ _ _ _ (by omega))⟩
        · by_cases h01 : bget bytes (pos + 1) = 0x01
          · have heq : scanStep bytes regions pos =
                ScanStep.cont
                  (markRange bytes.length regions pos (min (pos + 2) bytes.length) rcOther)
                  (pos + 2) := by
              unfold scanStep
              rw [if_neg hff, if_neg h9, if_neg h8, if_neg hrst, if_pos h01]
            exact Or.inl ⟨_, _, heq, by omega,
              fun j hj => Or.inl (markRange_apply_ge _ _ _ _ _ _ (by omega))⟩
          · cases hseg : readSegment bytes pos with
            | none =>
              have heq : scanStep bytes regions pos = ScanStep.halt regions pos := by
                unfold scanStep
                rw [if_neg hff, if_neg h9, if_neg h8, if_neg hrst, if_neg h01]
                simp only [hseg]
              exact Or.inr heq
            | some stop =>
              have hbnd := readSegment_bounds bytes pos stop hseg
              by_cases happ : 0xe0 ≤ bget bytes (pos + 1) ∧ bget bytes (pos + 1) ≤ 0xef
              · have heq : scanStep bytes regions pos =
                    ScanStep.cont (markRange bytes.length regions pos stop rcApp) stop := by
                  unfold scanStep
                  rw [if_neg hff, if_neg h9, if_neg h8, if_neg hrst, if_neg h01]
                  simp only [hseg]
                  rw [if_pos happ]
                exact Or.inl ⟨_, _, heq, by omega,
                  fun j hj => Or.inl (markRange_apply_ge _ _ _ _ _ _ (by omega))⟩
              · by_cases hdb : bget bytes (pos + 1) = 0xdb
                · have heq : scanStep bytes regions pos =
                      ScanStep.cont (markRange bytes.length regions pos stop rcDqt) stop := by
                    unfold scanStep
                    rw [if_neg hff, if_neg h9, if_neg h8, if_neg hrst, if_neg h01]
                    simp only [hseg]
                    rw [if_neg happ, if_pos hdb]
                  exact Or.inl ⟨_, _, heq, by omega,
                    fun j hj => Or.inl (markRange_apply_ge _ _ _ _ _ _ (by omega))⟩
                · by_cases hsof : isSofMarker (bget bytes (pos + 1)) = true
                  · have heq : scanStep bytes regions pos =
                        ScanStep.cont
                          (markByte bytes.length
                            (markByte bytes.length
                              (markRange bytes.length regions pos stop rcSof)
                              (pos + 7) rcSofWidth)
                            (pos + 8) rcSofWidth)
                          stop := by
                      unfold scanStep
                      rw [if_neg hff, if_neg h9, if_neg h8, if_neg hrst, if_neg h01]
                      simp only [hseg]
                      rw [if_neg happ, if_neg hdb, if_pos hsof]
                    refine Or.inl ⟨_, _, heq, by omega, fun j hj => ?_⟩
                    rcases markByte_apply_cases bytes.length _ (pos + 8) rcSofWidth j with h8c | h8c
                    · rw [h8c]
                      rcases markByte_apply_cases bytes.length _ (pos + 7) rcSofWidth j with h7c | h7c
                      · rw [h7c]
                        exact Or.inl (markRange_apply_ge _ _ _ _ _ _ (by omega))
                      · rw [h7c]
                        exact Or.inr rfl
                    · rw [h8c]
                      exact Or.inr rfl
                  · by_cases hc4 : bget bytes (pos + 1) = 0xc4
                    · have heq : scanStep bytes regions pos =
                          ScanStep.cont (markRange bytes.length regions pos stop rcDht) stop := by
                        unfold scanStep
                        rw [if_neg hff, if_neg h9, if_neg h8, if_neg hrst, if_neg h01]
                        simp only [hseg]
                        rw [if_neg happ, if_neg hdb, if_neg hsof, if_pos hc4]
                      exact Or.inl ⟨_, _, heq, by omega,
                        fun j hj => Or.inl (markRange_apply_ge _ _ _ _ _ _ (by omega))⟩
                    · by_cases hdd : bget bytes (pos + 1) = 0xdd
                      · have heq : scanStep bytes regions pos =
                            ScanStep.cont (markRange bytes.length regions pos stop rcDri) stop := by
                          unfold scanStep
                          rw [if_neg hff, if_neg h9, if_neg h8, if_neg hrst, if_neg h01]
                          simp only [hseg]
                          rw [if_neg happ, if_neg hdb, if_neg hsof, if_neg hc4, if_pos hdd]
                        exact Or.inl ⟨_, _, heq, by omega,
                          fun j hj => Or.inl (markRange_apply_ge _ _ _ _ _ _ (by omega))⟩
                      · by_cases hda : bget bytes (pos + 1) = 0xda
                        · have heq : scanStep bytes regions pos =
                              ScanStep.cont
                                (consumeScanData bytes bytes.length
                                  (markRange bytes.length regions pos stop rcSosHeader) stop).1
                                (consumeScanData bytes bytes.length
                                  (markRange bytes.length regions pos stop rcSosHeader) stop).2 := by
                            unfold scanStep
                            rw [if_neg hff, if_neg h9, if_neg h8, if_neg hrst, if_neg h01]
                            simp only [hseg]
                            rw [if_neg happ, if_neg hdb, if_neg hsof, if_neg hc4, if_neg hdd,
                              if_pos hda]
                          have hcp := consumeScanData_pos bytes bytes.length
                            (markRange bytes.length regions pos stop rcSosHeader) stop (by omega)
                          refine Or.inl ⟨_, _, heq, by omega, fun j hj => ?_⟩
                          rw [consumeScanData_untouched bytes bytes.length _ stop j (by omega)
                            (by omega)]
                          exact Or.inl (markRange_apply_ge _ _ _ _ _ _ (by omega))
                        · by_cases hfe : bget bytes (pos + 1) = 0xfe
                          · have heq : scanStep bytes regions pos =
                                ScanStep.cont (markRange bytes.length regions pos stop rcCom)
                                  stop := by
                              unfold scanStep
                              rw [if_neg hff, if_neg h9, if_neg h8, if_neg hrst, if_neg h01]
                              simp only [hseg]
                              rw [if_neg happ, if_neg hdb, if_neg hsof, if_neg hc4, if_neg hdd,
                                if_neg hda, if_pos hfe]
                            exact Or.inl ⟨_, _, heq, by omega,
                              fun j hj => Or.inl (markRange_apply_ge _ _ _ _ _ _ (by omega))⟩
                          · have heq : scanStep bytes regions pos =
                                ScanStep.cont (markRange bytes.length regions pos stop rcOther)
                                  stop := by
                              unfold scanStep
                              rw [if_neg hff, if_neg h9, if_neg h8, if_neg hrst, if_neg h01]
                              simp only [hseg]
                              rw [if_neg happ, if_neg hdb, if_neg hsof, if_neg hc4, if_neg hdd,
                                if_neg hda, if_neg hfe]
                            exact Or.inl ⟨_, _, heq, by omega,
                              fun j hj => Or.inl (markRange_apply_ge _ _ _ _ _ _ (by omega))⟩

/-- A continuing outer-scan iteration strictly advances the position and
leaves every index at or beyond the new position either unchanged or
overlaid with the frame-header width sub-tag. -/
theorem scanStep_cont (bytes : List Nat) (regions : Nat → Nat) (pos : Nat)
    (r' : Nat → Nat) (p : Nat) (h : scanStep bytes regions pos = ScanStep.cont r' p) :
    pos < p ∧ ∀ j, p ≤ j → r' j = regions j ∨ r' j = rcSofWidth := by
  rcases scanStep_cases bytes regions pos with ⟨r2, p2, heq, hlt, huw⟩ | heq
  · rw [heq] at h
    injection h with h1 h2
    subst h1
    subst h2
    exact ⟨hlt, huw⟩
  · rw [heq] at h
    exact ScanStep.noConfusion h

/-- An aborting outer-scan iteration changes no region tags and reports
the current position. -/
theorem scanStep_halt (bytes : List Nat) (regions : Nat → Nat) (pos : Nat)
    (r' : Nat → Nat) (a : Nat) (h : scanStep bytes regions pos = ScanStep.halt r' a) :
    r' = regions ∧ a = pos := by
  rcases scanStep_cases bytes regions pos with ⟨r2, p2, heq, hlt, huw⟩ | heq
  · rw [heq] at h
    exact ScanStep.noConfusion h
  · rw [heq] at h
    injection h with h1 h2
    exact ⟨h1.symm, h2.symm⟩

/-- When the outer scan aborts, every index at or beyond the abort
position still carries its incoming tag or the frame-header width
sub-tag. -/
theorem scanLoop_abort (bytes : List Nat) (fuel : Nat) :
    ∀ (regions : Nat → Nat) (pos : Nat) (r' : Nat → Nat) (p : Nat),
      scanLoop bytes fuel regions pos = (r', some p) →
      (∀ j, pos ≤ j → regions j = rcUnknown ∨ regions j = rcSofWidth) →
      ∀ j, p ≤ j → r' j = rcUnknown ∨ r' j = rcSofWidth := by
  induction fuel with
  | zero =>
    intro regions pos r' p h hin
    simp [scanLoop] at h
  | succ fuel ih =>
    intro regions pos r' p h hin
    rw [scanLoop] at h
    split at h
    · rcases hstep : scanStep bytes regions pos with ⟨r2, p2⟩ | ⟨r2, a2⟩
      · rw [hstep] at h
        have hc := scanStep_cont bytes regions pos r2 p2 hstep
        refine ih r2 p2 r' p h (fun j hj => ?_)
        rcases hc.2 j hj with heqj | hw
        · rw [heqj]
          exact hin j (by omega)
        · exact Or.inr hw
      · rw [hstep] at h
        have hh := scanStep_halt bytes regions pos r2 a2 hstep
        injection h with h1 h2
        injection h2 with h2
        have ha : a2 = pos := hh.2
        intro j hj
        have hr : r' j = regions j := by
          rw [← h1, hh.1]
        rw [hr]
        exact hin j (by omega)
    · injection h with h1 h2
      exact Option.noConfusion h2

/-- Fuel irrelevance for consumeScanData: any fuel covering the remaining
buffer (in particular fuel equal to the buffer length) computes the same
result, so the fuel argument is invisible and the embedding matches the
source's unbounded while loop. -/
theorem consumeScanData_fuel (bytes : List Nat) :
    ∀ (f1 f2 : Nat) (regions : Nat → Nat) (i : Nat), i ≤ bytes.length →
      bytes.length ≤ i + f1 → bytes.length ≤ i + f2 →
      consumeScanData bytes f1 regions i = consumeScanData bytes f2 regions i := by
  intro f1
  induction f1 with
  | zero =>
    intro f2 regions i hi h1 h2
    have hlen : i = bytes.length := by omega
    cases f2 with
    | zero => rfl
    | succ f2 =>
      show (regions, i) = _
      rw [consumeScanData]
      rw [if_neg (by omega)]
      have hs : scanTail bytes.length regions i = regions := by
        funext j
        unfold scanTail
        rw [if_neg (by omega)]
      rw [hs, hlen]
  | succ f1 ih =>
    intro f2 regions i hi h1 h2
    by_cases hguard : i < bytes.length - 1
    · cases f2 with
      | zero => omega
      | succ f2 =>
        rw [consumeScanData, consumeScanData]
        rw [if_pos hguard, if_pos hguard]
        by_cases hb : bget bytes i ≠ 0xff
        · rw [if_pos hb, if_pos hb]
          exact ih f2 _ (i + 1) (by omega) (by omega) (by omega)
        · rw [if_neg hb, if_neg hb]
          by_cases hc : bget bytes (i + 1) = 0x00
          · rw [if_pos hc, if_pos hc]
            exact ih f2 _ (i + 2) (by omega) (by omega) (by omega)
          · rw [if_neg hc, if_neg hc]
            by_cases hd : 0xd0 ≤ bget bytes (i + 1) ∧ bget bytes (i + 1) ≤ 0xd7
            · rw [if_pos hd, if_pos hd]
              exact ih f2 _ (i + 2) (by omega) (by omega) (by omega)
            · rw [if_neg hd, if_neg hd]
              by_cases he : bget bytes (i + 1) = 0xff
              · rw [if_pos he, if_pos he]
                exact ih f2 _ (i + 1) (by omega) (by omega) (by omega)
              · rw [if_neg he, if_neg he]
    · cases f2 with
      | zero =>
        have hlen : i = bytes.length := by omega
        conv_lhs => rw [consumeScanData]
        rw [if_neg hguard]
        show _ = (regions, i)
        have hs : scanTail bytes.length regions i = regions := by
          funext j
          unfold scanTail
          rw [if_neg (by omega)]
        rw [hs, hlen]
      | succ f2 =>
        rw [consumeScanData, consumeScanData]
        rw [if_neg hguard, if_neg hguard]

/-- Fuel irrelevance for the outer scan loop: any fuel covering the
remaining positions (in particular fuel equal to the buffer length, as
used by analyzeJpeg from position 2) computes the same result, so the
embedding matches the source's unbounded while loop. -/
theorem scanLoop_fuel (bytes : List Nat) :
    ∀ (f1 f2 : Nat) (regions : Nat → Nat) (pos : Nat),
      bytes.length ≤ pos + f1 + 1 → bytes.length ≤ pos + f2 + 1 →
      scanLoop bytes f1 regions pos = scanLoop bytes f2 regions pos := by
  intro f1
  induction f1 with
  | zero =>
    intro f2 regions pos h1 h2
    cases f2 with
    | zero => rfl
    | succ f2 =>
      show (regions, none) = _
      rw [scanLoop]
      rw [if_neg (by omega)]
  | succ f1 ih =>
    intro f2 regions pos h1 h2
    by_cases hguard : pos < bytes.length - 1
    · cases f2 with
      | zero => omega
      | succ f2 =>
        rw [scanLoop, scanLoop]
        rw [if_pos hguard, if_pos hguard]
        rcases hstep : scanStep bytes regions pos with ⟨r2, p2⟩ | ⟨r2, a2⟩
        · have hc := scanStep_cont bytes regions pos r2 p2 hstep
          exact ih f2 r2 p2 (by omega) (by omega)
        · rfl
    · cases f2 with
      | zero =>
        conv_lhs => rw [scanLoop]
        rw [if_neg hguard]
        rfl
      | succ f2 =>
        rw [scanLoop, scanLoop]
        rw [if_neg hguard, if_neg hguard]

/-- C4: analyzeJpeg returns null exactly when the input has fewer than 4
bytes or its first two bytes are not the start sentinel FF D8; every
other input yields a non-null layout (and the embedding is a total
function, so classification always terminates and never throws). -/
theorem analyzeJpeg_none_iff (bytes : List Nat) :
    analyzeJpeg bytes = none ↔
      bytes.length < 4 ∨ ¬(bget bytes 0 = 0xff ∧ bget bytes 1 = 0xd8) := by
  by_cases h4 : bytes.length < 4
  · simp [analyzeJpeg, analyzeJpegFull, h4]
  · by_cases hs : bget bytes 0 = 0xff ∧ bget bytes 1 = 0xd8
    · simp [analyzeJpeg, analyzeJpegFull, h4, hs.1, hs.2]
    · simp [analyzeJpeg, analyzeJpegFull, h4, hs]

/-- C10: classifyByte is total; it answers unknown for a null layout and
for any offset outside [0, length), and otherwise decodes the stored
per-byte region code. -/
theorem classifyByte_total (l : JpegLayout) (offset : Int) :
    classifyByte offset none = ByteRegion.unknown ∧
    (offset < 0 ∨ (l.length : Int) ≤ offset → classifyByte offset (some l) = ByteRegion.unknown) ∧
    (0 ≤ offset → offset < (l.length : Int) →
      classifyByte offset (some l) = codeToRegion (l.regions offset.toNat)) := by
  refine ⟨rfl, ?_, ?_⟩
  · intro h
    simp only [classifyByte]
    rw [if_pos h]
  · intro h1 h2
    simp only [classifyByte]
    rw [if_neg (by omega)]

/-- Witness for classifyByte_total at a concrete layout: a negative
offset answers unknown, and an in-range offset decodes the stored code. -/
theorem classifyByte_total_witness :
    classifyByte (-1) (some layout10) = ByteRegion.unknown ∧
    classifyByte 0 (some layout10) = codeToRegion (layout10.regions 0) :=
  ⟨(classifyByte_total layout10 (-1)).2.1 (Or.inl (by decide)),
   (classifyByte_total layout10 0).2.2 (by decide) (by decide)⟩

/-- Counterexample to claim C5 as stated: on ex5 classification aborts at
position 6, yet offset 9 (the width-byte overlay of the short
frame-header segment) is tagged sof-width, not unknown. -/
theorem C5Claim_refuted : ¬ C5Claim := by
  intro h
  have h1 : analyzeJpegFull ex5 = some (ex5regions, some 6) := by rfl
  have h2 : ex5regions 9 = 5 := by decide
  have h3 := h ex5 ex5regions 6 h1 9 (by omega) (by decide)
  rw [h3] at h2
  exact absurd h2 (by decide)

/-- C5 amended: on accepted input, when classification aborts at position
p the partial layout is still published, and every byte from p to the end
of the buffer is tagged unknown except bytes overlaid with the
frame-header width sub-tag by an earlier frame-header segment whose
width-byte offsets (id-position + 7 and + 8) lie past that segment's
end. -/
theorem analyzeJpeg_abort_tags (bytes : List Nat) (r : Nat → Nat) (p : Nat)
    (h : analyzeJpegFull bytes = some (r, some p)) :
    analyzeJpeg bytes = some { length := bytes.length, regions := r } ∧
    ∀ i, p ≤ i → i < bytes.length → r i = rcUnknown ∨ r i = rcSofWidth := by
  constructor
  · unfold analyzeJpeg
    rw [h]
    rfl
  · simp only [analyzeJpegFull] at h
    split at h
    · exact absurd h (by simp)
    · split at h
      · injection h with h0
        intro i hi hilen
        exact scanLoop_abort bytes bytes.length _ 2 r p h0
          (fun j hj => Or.inl (by rw [markRange_apply_ge _ _ _ _ _ _ (by omega)])) i hi
      · exact absurd h (by simp)

/-- Witness for analyzeJpeg_abort_tags on ex5: offset 7, beyond the
abort position 6, is tagged unknown or sof-width. -/
theorem analyzeJpeg_abort_tags_witness :
    ex5regions 7 = rcUnknown ∨ ex5regions 7 = rcSofWidth :=
  (analyzeJpeg_abort_tags ex5 ex5regions 6 (by rfl)).2 7 (by omega) (by decide)

/-- Counterexample to claim C6 as stated: at a mid-stream FF D8 (a marker
id outside the claim's exception list) the scan advances by two and does
not read a length field, while the claimed behaviour would consume a
segment ending at id-position + 2 + length = 8. -/
theorem C6Claim_refuted : ¬ C6Claim := by
  intro h
  have heq := h bytes6 r0 2 (by decide) (by decide) (by decide) (by decide) (by decide)
  have h1 : stepPos (scanStep bytes6 r0 2) = 4 := by decide
  have h2 : stepPos (lengthSegStep bytes6 r0 2) = 8 := by decide
  rw [heq] at h1
  rw [h2] at h1
  exact absurd h1 (by decide)

/-- C6 amended: during the outer scan, at a marker-prefix byte whose
marker id is not the end-marker id 0xD9, not a restart-marker id
0xD0-0xD7, not the no-payload fill id 0x01, and also not the
start-marker id 0xD8 (which the scan treats as a 2-byte marker with no
length field), the iteration reads the 2-byte big-endian length field and
treats the segment as ending at id-position + 2 + length. -/
theorem scanStep_lengthSegment (bytes : List Nat) (regions : Nat → Nat) (pos : Nat)
    (hlen : pos + 1 < bytes.length)
    (hff : bget bytes pos = 0xff)
    (h9 : bget bytes (pos + 1) ≠ 0xd9)
    (hrst : ¬(0xd0 ≤ bget bytes (pos + 1) ∧ bget bytes (pos + 1) ≤ 0xd7))
    (h01 : bget bytes (pos + 1) ≠ 0x01)
    (h8 : bget bytes (pos + 1) ≠ 0xd8) :
    scanStep bytes regions pos = lengthSegStep bytes regions pos := by
  unfold scanStep lengthSegStep
  rw [if_neg (not_not_intro hff), if_neg h9, if_neg h8, if_neg hrst, if_neg h01]

/-- Witness for scanStep_lengthSegment at a concrete application segment
marker FF E0. -/
theorem scanStep_lengthSegment_witness :
    scanStep ex6w r0 2 = lengthSegStep ex6w r0 2 :=
  scanStep_lengthSegment ex6w r0 2 (by decide) (by decide) (by decide) (by decide)
    (by decide) (by decide)

/-- Introduction rule for WF at a state with a current buffer. -/
theorem WF_some (s : EditorState) (b : List Nat) (hb : s.bytes = some b)
    (h1 : 0 ≤ s.historyIndex) (h2 : s.historyIndex < (s.history.length : Int))
    (h3 : s.history.getD s.historyIndex.toNat [] = b)
    (h4 : if b.length = 0 then s.activeOffset = 0 else s.activeOffset < b.length) :
    WF s := by
  unfold WF
  rw [hb]
  exact ⟨h1, h2, h3, h4⟩

/-- Elimination rule for WF at a state with a current buffer. -/
theorem WF_some_elim (s : EditorState) (b : List Nat) (hwf : WF s) (hb : s.bytes = some b) :
    0 ≤ s.historyIndex ∧ s.historyIndex < (s.history.length : Int) ∧
    s.history.getD s.historyIndex.toNat [] = b ∧
    (if b.length = 0 then s.activeOffset = 0 else s.activeOffset < b.length) := by
  unfold WF at hwf
  rw [hb] at hwf
  exact hwf

/-- Introduction rule for WF at a state without a buffer. -/
theorem WF_none (s : EditorState) (hb : s.bytes = none) (h1 : s.history = [])
    (h2 : s.historyIndex = -1) (h3 : s.activeOffset = 0) : WF s := by
  unfold WF
  rw [hb]
  exact ⟨h1, h2, h3⟩

/-- Elimination rule for WF at a state without a buffer. -/
theorem WF_none_elim (s : EditorState) (hwf : WF s) (hb : s.bytes = none) :
    s.history = [] ∧ s.historyIndex = -1 ∧ s.activeOffset = 0 := by
  unfold WF at hwf
  rw [hb] at hwf
  exact hwf

/-- The empty state is well-formed. -/
theorem wf_createEmptyState : WF createEmptyState := by
  unfold WF createEmptyState
  exact ⟨rfl, rfl, rfl⟩

/-- History-index facts established by every pushSnapshot: the new index
is the last position of the new history and addresses the pushed bytes. -/
theorem wf_push_core (s : EditorState) (bytes : List Nat) (fileName : Option String) :
    0 ≤ (pushSnapshot s bytes fileName).historyIndex ∧
    (pushSnapshot s bytes fileName).historyIndex <
      ((pushSnapshot s bytes fileName).history.length : Int) ∧
    (pushSnapshot s bytes fileName).history.getD
      (pushSnapshot s bytes fileName).historyIndex.toNat [] = bytes := by
  simp only [pushSnapshot]
  generalize (if 0 ≤ s.historyIndex ∧ s.historyIndex < (s.history.length : Int) - 1 then
      s.history.take (s.historyIndex.toNat + 1) else s.history) = T
  refine ⟨?_, ?_, ?_⟩
  · simp only [List.length_append, List.length_cons, List.length_nil]
    omega
  · simp only [List.length_append, List.length_cons, List.length_nil]
    omega
  · have hidx : ((((T ++ [bytes]).length : Nat) : Int) - 1).toNat = T.length := by
      simp only [List.length_append, List.length_cons, List.length_nil]
      omega
    rw [hidx, List.getD_eq_getElem?_getD, List.getElem?_concat_length]
    rfl

/-- Active-offset clamp established by every pushSnapshot. -/
theorem wf_push_ao (s : EditorState) (bytes : List Nat) (fileName : Option String) :
    if bytes.length = 0 then (pushSnapshot s bytes fileName).activeOffset = 0
    else (pushSnapshot s bytes fileName).activeOffset < bytes.length := by
  simp only [pushSnapshot]
  split_ifs <;> omega

/-- pushSnapshot always produces a well-formed state. -/
theorem wf_pushSnapshot (s : EditorState) (bytes : List Nat) (fileName : Option String) :
    WF (pushSnapshot s bytes fileName) :=
  WF_some _ bytes rfl (wf_push_core s bytes fileName).1 (wf_push_core s bytes fileName).2.1
    (wf_push_core s bytes fileName).2.2 (wf_push_ao s bytes fileName)

/-- loadNewFile always produces a well-formed state. -/
theorem wf_loadNewFile (s : EditorState) (buffer : List Nat) (fileName : Option String) :
    WF (loadNewFile s buffer fileName) := by
  refine WF_some _ buffer rfl ?_ ?_ ?_ ?_
  · exact (wf_push_core s buffer fileName).1
  · exact (wf_push_core s buffer fileName).2.1
  · exact (wf_push_core s buffer fileName).2.2
  · show if buffer.length = 0 then (0 : Nat) = 0 else 0 < buffer.length
    split_ifs <;> omega

/-- applyEdit preserves well-formedness. -/
theorem wf_applyEdit (s : EditorState) (mutator : List Nat → List Nat) (hwf : WF s) :
    WF (applyEdit s mutator) := by
  cases hb : s.bytes with
  | none =>
    simp only [applyEdit, hb]
    exact hwf
  | some b =>
    simp only [applyEdit, hb]
    exact wf_pushSnapshot s (mutator b) s.fileName

/-- applyInsert preserves well-formedness. -/
theorem wf_applyInsert (s : EditorState) (offset : Int) (ins : List Nat) (hwf : WF s) :
    WF (applyInsert s offset ins) := by
  cases hb : s.bytes with
  | none =>
    simp only [applyInsert, hb]
    exact hwf
  | some b =>
    simp only [applyInsert, hb]
    by_cases hi : ins.length = 0
    · rw [if_pos hi]
      exact hwf
    · rw [if_neg hi]
      refine WF_some _
        (b.take (clampInsertOffset offset b.length) ++ ins ++
          b.drop (clampInsertOffset offset b.length)) rfl ?_ ?_ ?_ ?_
      · exact (wf_push_core s _ s.fileName).1
      · exact (wf_push_core s _ s.fileName).2.1
      · exact (wf_push_core s _ s.fileName).2.2
      · have hso : clampInsertOffset offset b.length ≤ b.length := by
          unfold clampInsertOffset
          omega
        have hlen : (b.take (clampInsertOffset offset b.length) ++ ins ++
            b.drop (clampInsertOffset offset b.length)).length = b.length + ins.length := by
          simp only [List.length_append, List.length_take, List.length_drop]
          omega
        show if _ = 0 then clampInsertOffset offset b.length = 0
          else clampInsertOffset offset b.length < _
        rw [hlen]
        split_ifs <;> omega

/-- restoreFromHistory produces a well-formed state whenever the history
index is in range. -/
theorem wf_restoreFromHistory (s : EditorState) (h1 : 0 ≤ s.historyIndex)
    (h2 : s.historyIndex < (s.history.length : Int)) :
    WF (restoreFromHistory s) := by
  refine WF_some _ (s.history.getD s.historyIndex.toNat []) rfl h1 h2 rfl ?_
  show if _ = 0 then (if (s.history.getD s.historyIndex.toNat []).length ≤ s.activeOffset then _ else _) = 0
    else (if (s.history.getD s.historyIndex.toNat []).length ≤ s.activeOffset then _ else _) < _
  split_ifs <;> omega

/-- undo preserves well-formedness. -/
theorem wf_undo (s : EditorState) (hwf : WF s) : WF (undo s).1 := by
  unfold undo
  by_cases hc : canUndo s = true
  · rw [if_pos hc]
    have hlt : 0 < s.historyIndex := of_decide_eq_true hc
    cases hb : s.bytes with
    | none =>
      have he := WF_none_elim s hwf hb
      exact absurd hlt (by omega)
    | some b =>
      have he := WF_some_elim s b hwf hb
      apply wf_restoreFromHistory
      · show 0 ≤ s.historyIndex - 1
        omega
      · show s.historyIndex - 1 < (s.history.length : Int)
        have := he.2.1
        omega
  · rw [if_neg hc]
    exact hwf

/-- redo preserves well-formedness. -/
theorem wf_redo (s : EditorState) (hwf : WF s) : WF (redo s).1 := by
  unfold redo
  by_cases hc : canRedo s = true
  · rw [if_pos hc]
    have hcr : 0 ≤ s.historyIndex ∧ s.historyIndex < (s.history.length : Int) - 1 := by
      unfold canRedo at hc
      simp only [Bool.and_eq_true, decide_eq_true_eq] at hc
      exact hc
    apply wf_restoreFromHistory
    · show 0 ≤ s.historyIndex + 1
      omega
    · show s.historyIndex + 1 < (s.history.length : Int)
      omega
  · rw [if_neg hc]
    exact hwf

/-- setActiveOffset preserves well-formedness. -/
theorem wf_setActiveOffset (s : EditorState) (offset : Int) (hwf : WF s) :
    WF (setActiveOffset s offset) := by
  cases hb : s.bytes with
  | none =>
    have he := WF_none_elim s hwf hb
    simp only [setActiveOffset, hb]
    exact WF_none _ rfl he.1 he.2.1 rfl
  | some b =>
    have he := WF_some_elim s b hwf hb
    simp only [setActiveOffset, hb]
    by_cases h0 : b.length = 0
    · rw [if_pos h0]
      refine WF_some _ b rfl he.1 he.2.1 he.2.2.1 ?_
      rw [if_pos h0]
    · rw [if_neg h0]
      refine WF_some _ b rfl he.1 he.2.1 he.2.2.1 ?_
      rw [if_neg h0]
      show (max 0 (min offset ((b.length : Int) - 1))).toNat < b.length
      omega

/-- Well-formedness implies the active-offset invariant of claim C9. -/
theorem AOInv_of_WF (s : EditorState) (hwf : WF s) : AOInv s := by
  cases hb : s.bytes with
  | none =>
    have he := WF_none_elim s hwf hb
    unfold AOInv
    rw [hb]
    exact he.2.2
  | some b =>
    have he := WF_some_elim s b hwf hb
    unfold AOInv
    rw [hb]
    exact he.2.2.2

/-- pushSnapshot leaves the history index at the last history position. -/
theorem push_idx_last (s : EditorState) (bytes : List Nat) (fileName : Option String) :
    (pushSnapshot s bytes fileName).historyIndex =
      ((pushSnapshot s bytes fileName).history.length : Int) - 1 := rfl

/-- Counterexample to claim C1 as stated: loading into a state whose
history holds two snapshots leaves a history of three entries with index
2, not a single entry with index 0. -/
theorem loadNewFile_reset_refuted :
    ¬((loadNewFile stateB [7] none).history.length = 1 ∧
      (loadNewFile stateB [7] none).historyIndex = 0) := by
  decide

/-- C1 amended: loadNewFile pushes a snapshot built from the bytes
(truncating any redo branch first) and sets the cursor to 0; the history
afterwards ends with the loaded bytes and the history index addresses the
last entry.  Only when the previous history was empty does the load leave
exactly one snapshot with history index 0. -/
theorem loadNewFile_push (s : EditorState) (bytes : List Nat) (name : Option String) :
    (s.history = [] →
      (loadNewFile s bytes name).history = [bytes] ∧
        (loadNewFile s bytes name).historyIndex = 0) ∧
    (loadNewFile s bytes name).activeOffset = 0 ∧
    (loadNewFile s bytes name).historyIndex =
      ((loadNewFile s bytes name).history.length : Int) - 1 ∧
    (loadNewFile s bytes name).history.getLast? = some bytes ∧
    (loadNewFile s bytes name).bytes = some bytes ∧
    (loadNewFile s bytes name).layout = analyzeJpeg bytes := by
  refine ⟨?_, rfl, rfl, ?_, rfl, rfl⟩
  · intro h
    constructor
    · show (if 0 ≤ s.historyIndex ∧ s.historyIndex < (s.history.length : Int) - 1 then
          s.history.take (s.historyIndex.toNat + 1) else s.history) ++ [bytes] = [bytes]
      rw [h]
      split_ifs <;> simp
    · show (((if 0 ≤ s.historyIndex ∧ s.historyIndex < (s.history.length : Int) - 1 then
          s.history.take (s.historyIndex.toNat + 1) else s.history) ++ [bytes]).length : Int) - 1 = 0
      rw [h]
      split_ifs <;> simp
  · show ((if 0 ≤ s.historyIndex ∧ s.historyIndex < (s.history.length : Int) - 1 then
        s.history.take (s.historyIndex.toNat + 1) else s.history) ++ [bytes]).getLast? = some bytes
    exact List.getLast?_concat _

/-- Witness for loadNewFile_push: loading into the empty state yields a
single-snapshot history with index 0. -/
theorem loadNewFile_push_witness :
    (loadNewFile createEmptyState [3] none).history = [[3]] ∧
    (loadNewFile createEmptyState [3] none).historyIndex = 0 :=
  (loadNewFile_push createEmptyState [3] none).1 rfl

/-- After pushing onto a well-formed history, the history holds at least
two entries and the second-to-last entry is the byte sequence the history
index addressed before the push. -/
theorem push_history_facts (s : EditorState) (bytes : List Nat) (fileName : Option String)
    (b : List Nat) (h1 : 0 ≤ s.historyIndex) (h2 : s.historyIndex < (s.history.length : Int))
    (h3 : s.history.getD s.historyIndex.toNat [] = b) :
    2 ≤ (pushSnapshot s bytes fileName).history.length ∧
    (pushSnapshot s bytes fileName).history.getD
      ((pushSnapshot s bytes fileName).history.length - 2) [] = b := by
  simp only [pushSnapshot]
  by_cases hc : 0 ≤ s.historyIndex ∧ s.historyIndex < (s.history.length : Int) - 1
  · rw [if_pos hc]
    have hlt : s.historyIndex.toNat + 1 ≤ s.history.length := by omega
    have htl : (s.history.take (s.historyIndex.toNat + 1)).length = s.historyIndex.toNat + 1 := by
      simp only [List.length_take]
      omega
    constructor
    · simp only [List.length_append, List.length_cons, List.length_nil, htl]
      omega
    · have hidx : (s.history.take (s.historyIndex.toNat + 1) ++ [bytes]).length - 2 =
          s.historyIndex.toNat := by
        simp only [List.length_append, List.length_cons, List.length_nil, htl]
        omega
      rw [hidx, List.getD_eq_getElem?_getD,
        List.getElem?_append_left (by omega : s.historyIndex.toNat <
          (s.history.take (s.historyIndex.toNat + 1)).length),
        List.getElem?_take]
      rw [if_pos (by omega)]
      rw [← List.getD_eq_getElem?_getD]
      exact h3
  · rw [if_neg hc]
    have hlen : 1 ≤ s.history.length := by omega
    have hidx2 : s.historyIndex.toNat = s.history.length - 1 := by omega
    constructor
    · simp only [List.length_append, List.length_cons, List.length_nil]
      omega
    · have hidx : (s.history ++ [bytes]).length - 2 = s.history.length - 1 := by
        simp only [List.length_append, List.length_cons, List.length_nil]
        omega
      rw [hidx, List.getD_eq_getElem?_getD,
        List.getElem?_append_left (by omega : s.history.length - 1 < s.history.length),
        ← List.getD_eq_getElem?_getD, ← hidx2]
      exact h3

/-- C2: undo immediately after a successful edit returns true and
restores the byte sequence that was current before the edit,
byte-for-byte. -/
theorem undo_after_edit (s : EditorState) (mutator : List Nat → List Nat) (b : List Nat)
    (hwf : WF s) (hb : s.bytes = some b) :
    (undo (applyEdit s mutator)).2 = true ∧
    (undo (applyEdit s mutator)).1.bytes = some b := by
  have he := WF_some_elim s b hwf hb
  have hae : applyEdit s mutator = pushSnapshot s (mutator b) s.fileName := by
    simp only [applyEdit, hb]
  rw [hae]
  have hpf := push_history_facts s (mutator b) s.fileName b he.1 he.2.1 he.2.2.1
  have hidx := push_idx_last s (mutator b) s.fileName
  have hcu : canUndo (pushSnapshot s (mutator b) s.fileName) = true := by
    unfold canUndo
    rw [hidx]
    simp only [decide_eq_true_eq]
    have := hpf.1
    omega
  unfold undo
  rw [if_pos hcu]
  refine ⟨rfl, ?_⟩
  show some ((pushSnapshot s (mutator b) s.fileName).history.getD
    ((pushSnapshot s (mutator b) s.fileName).historyIndex - 1).toNat []) = some b
  have harith : ((pushSnapshot s (mutator b) s.fileName).historyIndex - 1).toNat =
      (pushSnapshot s (mutator b) s.fileName).history.length - 2 := by
    rw [hidx]
    have := hpf.1
    omega
  rw [harith, hpf.2]

/-- Witness for undo_after_edit: editing stateB and undoing returns true
and restores the bytes [0]. -/
theorem undo_after_edit_witness :
    (undo (applyEdit stateB (fun l => l))).2 = true ∧
    (undo (applyEdit stateB (fun l => l))).1.bytes = some [0] :=
  undo_after_edit stateB (fun l => l) [0]
    (wf_applyEdit stateA (fun b => b) (wf_loadNewFile createEmptyState [0] none)) rfl

/-- restoreFromHistory republishes the snapshot at the current index. -/
theorem restore_bytes (s : EditorState) :
    (restoreFromHistory s).bytes = some (s.history.getD s.historyIndex.toNat []) := rfl

/-- restoreFromHistory does not change the history. -/
theorem restore_history (s : EditorState) :
    (restoreFromHistory s).history = s.history := rfl

/-- restoreFromHistory does not change the history index. -/
theorem restore_historyIndex (s : EditorState) :
    (restoreFromHistory s).historyIndex = s.historyIndex := rfl

/-- A redo whose guard holds reports success. -/
theorem redo_success (t : EditorState) (h : canRedo t = true) : (redo t).2 = true := by
  unfold redo
  rw [if_pos h]

/-- Bytes republished by a successful redo. -/
theorem redo_success_bytes (t : EditorState) (h : canRedo t = true) :
    (redo t).1.bytes = some (t.history.getD (t.historyIndex + 1).toNat []) := by
  unfold redo
  rw [if_pos h]
  exact restore_bytes _

/-- C3: redo immediately after a successful undo returns true and
restores the previously current (edited) byte sequence exactly, and
committing a new edit after an undo discards the redo branch, making
canRedo false. -/
theorem redo_undo_roundtrip (s : EditorState) (mutator : List Nat → List Nat) (hwf : WF s) :
    ((undo s).2 = true →
      (redo (undo s).1).2 = true ∧ (redo (undo s).1).1.bytes = s.bytes) ∧
    canRedo (applyEdit (undo s).1 mutator) = false := by
  constructor
  · intro hu
    have hc : canUndo s = true := by
      by_contra hc
      unfold undo at hu
      rw [if_neg hc] at hu
      simp at hu
    have hlt : 0 < s.historyIndex := of_decide_eq_true hc
    cases hb : s.bytes with
    | none =>
      have hne := WF_none_elim s hwf hb
      exact absurd hlt (by omega)
    | some b =>
      have he := WF_some_elim s b hwf hb
      have hu1 : (undo s).1 = restoreFromHistory { s with historyIndex := s.historyIndex - 1 } := by
        unfold undo
        rw [if_pos hc]
      rw [hu1]
      have hcr : canRedo (restoreFromHistory { s with historyIndex := s.historyIndex - 1 }) =
          true := by
        unfold canRedo
        show (decide (0 ≤ s.historyIndex - 1) &&
          decide (s.historyIndex - 1 < (s.history.length : Int) - 1)) = true
        simp only [Bool.and_eq_true, decide_eq_true_eq]
        have := he.2.1
        omega
      refine ⟨redo_success _ hcr, ?_⟩
      rw [redo_success_bytes _ hcr, restore_history, restore_historyIndex]
      show some (s.history.getD (s.historyIndex - 1 + 1).toNat []) = some b
      have harith : (s.historyIndex - 1 + 1).toNat = s.historyIndex.toNat := by omega
      rw [harith, he.2.2.1]
  · have hwt : WF (undo s).1 := wf_undo s hwf
    cases hbt : (undo s).1.bytes with
    | none =>
      have hne := WF_none_elim (undo s).1 hwt hbt
      simp only [applyEdit, hbt]
      unfold canRedo
      rw [hne.2.1]
      simp
    | some b =>
      simp only [applyEdit, hbt]
      have hidx := push_idx_last (undo s).1 (mutator b) (undo s).1.fileName
      unfold canRedo
      rw [hidx]
      have hfalse : decide
          ((((pushSnapshot (undo s).1 (mutator b) (undo s).1.fileName).history.length : Int) - 1) <
            ((pushSnapshot (undo s).1 (mutator b) (undo s).1.fileName).history.length : Int) - 1) =
          false := by
        simp
      rw [hfalse, Bool.and_false]

/-- Witness for redo_undo_roundtrip at stateB: undo succeeds there, redo
restores the bytes, and an edit after the undo disables redo. -/
theorem redo_undo_roundtrip_witness :
    ((undo stateB).2 = true →
      (redo (undo stateB).1).2 = true ∧ (redo (undo stateB).1).1.bytes = stateB.bytes) ∧
    canRedo (applyEdit (undo stateB).1 (fun l => l)) = false :=
  redo_undo_roundtrip stateB (fun l => l)
    (wf_applyEdit stateA (fun b => b) (wf_loadNewFile createEmptyState [0] none))

/-- pushSnapshot unconditionally re-establishes the active-offset
invariant. -/
theorem ao_pushSnapshot (s : EditorState) (bytes : List Nat) (fileName : Option String) :
    AOInv (pushSnapshot s bytes fileName) := by
  unfold AOInv
  rw [show (pushSnapshot s bytes fileName).bytes = some bytes from rfl]
  exact wf_push_ao s bytes fileName

/-- restoreFromHistory unconditionally re-establishes the active-offset
invariant. -/
theorem ao_restoreFromHistory (s : EditorState) : AOInv (restoreFromHistory s) := by
  unfold AOInv
  rw [restore_bytes]
  show if (s.history.getD s.historyIndex.toNat []).length = 0 then
      (restoreFromHistory s).activeOffset = 0
    else (restoreFromHistory s).activeOffset < (s.history.getD s.historyIndex.toNat []).length
  simp only [restoreFromHistory]
  split_ifs <;> omega

/-- C9: every editor operation preserves the invariant that the active
offset lies in [0, length - 1] for a non-empty buffer and is 0 for an
empty or absent buffer. -/
theorem editorOps_preserve_activeOffset (s : EditorState) (bytes : List Nat)
    (name : Option String) (mutator : List Nat → List Nat) (off1 : Int) (ins : List Nat)
    (off2 : Int) (h : AOInv s) :
    AOInv (loadNewFile s bytes name) ∧ AOInv (applyEdit s mutator) ∧
    AOInv (applyInsert s off1 ins) ∧ AOInv (undo s).1 ∧ AOInv (redo s).1 ∧
    AOInv (setActiveOffset s off2) := by
  refine ⟨?_, ?_, ?_, ?_, ?_, ?_⟩
  · unfold AOInv
    rw [show (loadNewFile s bytes name).bytes = some bytes from rfl]
    show if bytes.length = 0 then (0 : Nat) = 0 else 0 < bytes.length
    split_ifs <;> omega
  · cases hb : s.bytes with
    | none =>
      simp only [applyEdit, hb]
      exact h
    | some b =>
      simp only [applyEdit, hb]
      exact ao_pushSnapshot s (mutator b) s.fileName
  · cases hb : s.bytes with
    | none =>
      simp only [applyInsert, hb]
      exact h
    | some b =>
      simp only [applyInsert, hb]
      by_cases hi : ins.length = 0
      · rw [if_pos hi]
        exact h
      · rw [if_neg hi]
        unfold AOInv
        have hso : clampInsertOffset off1 b.length ≤ b.length := by
          unfold clampInsertOffset
          omega
        have hlen : (b.take (clampInsertOffset off1 b.length) ++ ins ++
            b.drop (clampInsertOffset off1 b.length)).length = b.length + ins.length := by
          simp only [List.length_append, List.length_take, List.length_drop]
          omega
        show if (b.take (clampInsertOffset off1 b.length) ++ ins ++
            b.drop (clampInsertOffset off1 b.length)).length = 0 then
            clampInsertOffset off1 b.length = 0
          else clampInsertOffset off1 b.length <
            (b.take (clampInsertOffset off1 b.length) ++ ins ++
              b.drop (clampInsertOffset off1 b.length)).length
        rw [hlen]
        split_ifs <;> omega
  · unfold undo
    by_cases hc : canUndo s = true
    · rw [if_pos hc]
      exact ao_restoreFromHistory _
    · rw [if_neg hc]
      exact h
  · unfold redo
    by_cases hc : canRedo s = true
    · rw [if_pos hc]
      exact ao_restoreFromHistory _
    · rw [if_neg hc]
      exact h
  · cases hb : s.bytes with
    | none =>
      simp only [setActiveOffset, hb]
      unfold AOInv
      rfl
    | some b =>
      simp only [setActiveOffset, hb]
      by_cases h0 : b.length = 0
      · rw [if_pos h0]
        unfold AOInv
        show if b.length = 0 then (0 : Nat) = 0 else 0 < b.length
        rw [if_pos h0]
      · rw [if_neg h0]
        unfold AOInv
        show if b.length = 0 then (max 0 (min off2 ((b.length : Int) - 1))).toNat = 0
          else (max 0 (min off2 ((b.length : Int) - 1))).toNat < b.length
        rw [if_neg h0]
        omega

/-- Witness for editorOps_preserve_activeOffset starting from the empty
state. -/
theorem editorOps_preserve_activeOffset_witness :
    AOInv (loadNewFile createEmptyState [1, 2] none) ∧
    AOInv (applyEdit createEmptyState (fun l => l)) ∧
    AOInv (applyInsert createEmptyState 1 [3]) ∧
    AOInv (undo createEmptyState).1 ∧ AOInv (redo createEmptyState).1 ∧
    AOInv (setActiveOffset createEmptyState (-2)) :=
  editorOps_preserve_activeOffset createEmptyState [1, 2] none (fun l => l) 1 [3] (-2) rfl

/-- C7: applyInsert on a loaded buffer with a non-empty payload clamps
the offset into [0, old length], produces prefix ++ payload ++ suffix with
the stated per-index content, and moves the active offset to the clamped
offset. -/
theorem applyInsert_spec (s : EditorState) (b : List Nat) (offset : Int) (ins : List Nat)
    (hb : s.bytes = some b) (hne : ins.length ≠ 0) :
    ∃ nb, (applyInsert s offset ins).bytes = some nb ∧
      (applyInsert s offset ins).activeOffset = clampInsertOffset offset b.length ∧
      clampInsertOffset offset b.length = (max 0 (min offset (b.length : Int))).toNat ∧
      nb.length = b.length + ins.length ∧
      (∀ i, i < clampInsertOffset offset b.length → nb.getD i 0 = b.getD i 0) ∧
      (∀ i, i < ins.length →
        nb.getD (clampInsertOffset offset b.length + i) 0 = ins.getD i 0) ∧
      (∀ i, clampInsertOffset offset b.length ≤ i → i < b.length →
        nb.getD (i + ins.length) 0 = b.getD i 0) := by
  have hso : clampInsertOffset offset b.length ≤ b.length := by
    unfold clampInsertOffset
    omega
  have htl : (b.take (clampInsertOffset offset b.length)).length =
      clampInsertOffset offset b.length := by
    simp only [List.length_take]
    omega
  refine ⟨b.take (clampInsertOffset offset b.length) ++ ins ++
      b.drop (clampInsertOffset offset b.length), ?_, ?_, rfl, ?_, ?_, ?_, ?_⟩
  · simp only [applyInsert, hb]
    rw [if_neg hne]
    rfl
  · simp only [applyInsert, hb]
    rw [if_neg hne]
  · simp only [List.length_append, List.length_take, List.length_drop]
    omega
  · intro i hi
    rw [List.getD_eq_getElem?_getD, List.getD_eq_getElem?_getD,
      List.getElem?_append_left (by
        simp only [List.length_append, htl]
        omega),
      List.getElem?_append_left (by rw [htl]; omega),
      List.getElem?_take, if_pos (by omega)]
  · intro i hi
    rw [List.getD_eq_getElem?_getD, List.getD_eq_getElem?_getD,
      List.getElem?_append_left (by
        simp only [List.length_append, htl]
        omega),
      List.getElem?_append_right (by rw [htl]; omega),
      htl]
    have hsub : clampInsertOffset offset b.length + i - clampInsertOffset offset b.length = i := by
      omega
    rw [hsub]
  · intro i h1 h2
    rw [List.getD_eq_getElem?_getD, List.getD_eq_getElem?_getD,
      List.getElem?_append_right (by
        simp only [List.length_append, htl]
        omega),
      List.getElem?_drop]
    have hsub : clampInsertOffset offset b.length +
        (i + ins.length - (b.take (clampInsertOffset offset b.length) ++ ins).length) = i := by
      simp only [List.length_append, htl]
      omega
    rw [hsub]

/-- Witness for applyInsert_spec: inserting [9] at offset -5 into stateA
(bytes [0]) clamps to offset 0. -/
theorem applyInsert_spec_witness :
    ∃ nb, (applyInsert stateA (-5) [9]).bytes = some nb ∧
      (applyInsert stateA (-5) [9]).activeOffset = clampInsertOffset (-5) [0].length ∧
      clampInsertOffset (-5) [0].length = (max 0 (min (-5) (([0] : List Nat).length : Int))).toNat ∧
      nb.length = [0].length + [9].length ∧
      (∀ i, i < clampInsertOffset (-5) [0].length → nb.getD i 0 = [0].getD i 0) ∧
      (∀ i, i < [9].length → nb.getD (clampInsertOffset (-5) [0].length + i) 0 = [9].getD i 0) ∧
      (∀ i, clampInsertOffset (-5) [0].length ≤ i → i < [0].length →
        nb.getD (i + [9].length) 0 = [0].getD i 0) :=
  applyInsert_spec stateA [0] (-5) [9] rfl (by decide)

/-- The recorded run starts form a sublist of the scanned index list. -/
theorem collectRunStarts_sublist (layout : JpegLayout) (tag : ByteRegion) :
    ∀ (l : List Nat) (prevRegion : Option ByteRegion),
      List.Sublist (collectRunStarts layout tag l prevRegion) l := by
  intro l
  induction l with
  | nil => intro prevRegion; exact List.Sublist.refl []
  | cons i rest ih =>
    intro prevRegion
    simp only [collectRunStarts]
    split
    · exact (ih prevRegion).cons i
    · split
      · exact (ih _).cons₂ i
      · exact (ih _).cons i

/-- The recorded run-start offsets are strictly increasing. -/
theorem sorted_regionOffsetsFor (layout : JpegLayout) (tag : ByteRegion) :
    List.Pairwise (· < ·) (regionOffsetsFor layout tag) :=
  List.Pairwise.sublist (collectRunStarts_sublist layout tag (List.range layout.length) none)
    (List.pairwise_lt_range layout.length)

/-- In a strictly increasing list, the first element found above a bound
is the least element above the bound. -/
theorem find?_first_above (l : List Nat) (c : Nat) (hs : List.Pairwise (· < ·) l) (x : Nat)
    (h : l.find? (fun y => decide (c < y)) = some x) :
    x ∈ l ∧ c < x ∧ ∀ y ∈ l, c < y → x ≤ y := by
  induction l with
  | nil => simp at h
  | cons a t ih =>
    by_cases hpa : c < a
    · rw [List.find?_cons_of_pos _ (by simpa using hpa)] at h
      injection h with h1
      subst h1
      refine ⟨List.mem_cons_self a t, hpa, ?_⟩
      intro y hy hcy
      rcases List.mem_cons.mp hy with rfl | hyt
      · exact Nat.le_refl y
      · exact Nat.le_of_lt ((List.pairwise_cons.mp hs).1 y hyt)
    · rw [List.find?_cons_of_neg _ (by simpa using hpa)] at h
      have hr := ih (List.pairwise_cons.mp hs).2 h
      refine ⟨List.mem_cons_of_mem a hr.1, hr.2.1, ?_⟩
      intro y hy hcy
      rcases List.mem_cons.mp hy with rfl | hyt
      · exact absurd hcy hpa
      · exact hr.2.2 y hyt hcy

/-- In a strictly decreasing list, the first element found below a bound
is the greatest element below the bound. -/
theorem find?_first_below (l : List Nat) (c : Nat) (hs : List.Pairwise (· > ·) l) (x : Nat)
    (h : l.find? (fun y => decide (y < c)) = some x) :
    x ∈ l ∧ x < c ∧ ∀ y ∈ l, y < c → y ≤ x := by
  induction l with
  | nil => simp at h
  | cons a t ih =>
    by_cases hpa : a < c
    · rw [List.find?_cons_of_pos _ (by simpa using hpa)] at h
      injection h with h1
      subst h1
      refine ⟨List.mem_cons_self a t, hpa, ?_⟩
      intro y hy hcy
      rcases List.mem_cons.mp hy with rfl | hyt
      · exact Nat.le_refl y
      · exact Nat.le_of_lt ((List.pairwise_cons.mp hs).1 y hyt)
    · rw [List.find?_cons_of_neg _ (by simpa using hpa)] at h
      have hr := ih (List.pairwise_cons.mp hs).2 h
      refine ⟨List.mem_cons_of_mem a hr.1, hr.2.1, ?_⟩
      intro y hy hcy
      rcases List.mem_cons.mp hy with rfl | hyt
      · exact absurd hcy hpa
      · exact hr.2.2 y hyt hcy

/-- C8: behaviour of the navigation query over the recorded run starts
of a region tag.  With no recorded runs it fails; with exactly one it
returns that run start in either direction; with two or more, next jumps
to the least run start strictly above the cursor (wrapping to the first
when none exists) and prev jumps to the greatest run start strictly below
the cursor (wrapping to the last when none exists); in particular with
runs at [5, 40, 100], next from 100 wraps to 5 and prev from 5 wraps to
100. -/
theorem findOffsetForRegion_spec (layout : JpegLayout) (tag : ByteRegion) (c : Nat)
    (offsets : List Nat) (hoff : offsets = regionOffsetsFor layout tag) :
    (offsets = [] → ∀ dir, findOffsetForRegion true offsets c dir = none) ∧
    (∀ a, offsets = [a] → ∀ dir, findOffsetForRegion true offsets c dir = some a) ∧
    (2 ≤ offsets.length →
      ((∃ x, findOffsetForRegion true offsets c JumpDirection.next = some x ∧ x ∈ offsets ∧
          c < x ∧ ∀ y ∈ offsets, c < y → x ≤ y) ∨
        ((∀ y ∈ offsets, y ≤ c) ∧
          findOffsetForRegion true offsets c JumpDirection.next = some (offsets.headD 0))) ∧
      ((∃ x, findOffsetForRegion true offsets c JumpDirection.prev = some x ∧ x ∈ offsets ∧
          x < c ∧ ∀ y ∈ offsets, y < c → y ≤ x) ∨
        ((∀ y ∈ offsets, c ≤ y) ∧
          findOffsetForRegion true offsets c JumpDirection.prev = some (offsets.getLastD 0)))) ∧
    findOffsetForRegion true [5, 40, 100] 100 JumpDirection.next = some 5 ∧
    findOffsetForRegion true [5, 40, 100] 5 JumpDirection.prev = some 100 := by
  have hsorted : List.Pairwise (· < ·) offsets := by
    rw [hoff]
    exact sorted_regionOffsetsFor layout tag
  refine ⟨?_, ?_, ?_, by decide, by decide⟩
  · intro he dir
    rw [he]
    rfl
  · intro a he dir
    rw [he]
    cases dir <;> rfl
  · intro h2
    have hl0 : ¬offsets.length = 0 := by omega
    have hl1 : ¬offsets.length = 1 := by omega
    constructor
    · cases hfind : offsets.find? (fun x => decide (c < x)) with
      | some x =>
        left
        have hf := find?_first_above offsets c hsorted x hfind
        exact ⟨x, by simp [findOffsetForRegion, hl0, hl1, hfind], hf.1, hf.2.1, hf.2.2⟩
      | none =>
        right
        have hnone := List.find?_eq_none.mp hfind
        refine ⟨fun y hy => ?_, by simp [findOffsetForRegion, hl0, hl1, hfind]⟩
        have := hnone y hy
        simp at this
        omega
    · have hsorted_rev : List.Pairwise (· > ·) offsets.reverse :=
        List.pairwise_reverse.mpr hsorted
      cases hfind : offsets.reverse.find? (fun x => decide (x < c)) with
      | some x =>
        left
        have hf := find?_first_below offsets.reverse c hsorted_rev x hfind
        refine ⟨x, by simp [findOffsetForRegion, hl0, hl1, hfind],
          List.mem_reverse.mp hf.1, hf.2.1, ?_⟩
        intro y hy hyc
        exact hf.2.2 y (List.mem_reverse.mpr hy) hyc
      | none =>
        right
        have hnone := List.find?_eq_none.mp hfind
        refine ⟨fun y hy => ?_, by simp [findOffsetForRegion, hl0, hl1, hfind]⟩
        have := hnone y (List.mem_reverse.mpr hy)
        simp at this
        omega

/-- Witness for findOffsetForRegion_spec on a concrete layout with a
single soi run at offset 0: navigation returns it regardless of cursor. -/
theorem findOffsetForRegion_spec_witness :
    findOffsetForRegion true (regionOffsetsFor layout8 ByteRegion.soi) 3 JumpDirection.next =
      some 0 :=
  (findOffsetForRegion_spec layout8 ByteRegion.soi 3 (regionOffsetsFor layout8 ByteRegion.soi)
    rfl).2.1 0 (by decide) JumpDirection.next
